import Mathlib

/-!
# The step core of the `pipeline` package (`step.go`)

A shallow embedding of `step.go`: the data carriers `Result` and `Request`,
the identity metadata `stepContextVal`, the embeddable `StepContext`, the
function adapter `step` with `Exec`, `Cancel` and `NewStep`.

* Go pointers are addresses into heaps kept in a `World`; a dereference of a
  nil pointer, and a call of a nil function value, is the run-time panic
  `Fault.nilDeref`, after which nothing more is observed.
* The collaborators that `step.go` calls but does not define: the sink `send`
  records its calls; the cancellation scopes of the standard `context` package
  are a table of flags, one per scope created; the colour wrapper of the
  terminal colour library is a pair of escape sequences (`Paint`).
* A user function is the tree of the calls it makes (`Prog`); `runProg` runs it
  to its return.  A `Cancel()` that arrives while the function is running is
  an action in that tree.  `Event` and `runEvents` give the same operations one
  atomic action at a time, for the properties of all reachable states.
* The operations are taken as atomic and sequentially consistent.
-/

namespace pipeline

/-- Run-time panics of the Go program that the step core can raise. -/
inductive Fault where
  | nilDeref
deriving DecidableEq, Repr

/-- Address of a `step` (and of the `StepContext` embedded in it). -/
abbrev Addr := Nat

/-- Identity of a cancellation scope (a `context.Context` made by `WithCancel`). -/
abbrev ScopeId := Nat

/-- Payloads carried in the `interface{}` fields. -/
inductive Value where
  | null
  | int (n : Int)
  | str (s : String)
  | bool (b : Bool)
deriving DecidableEq, Repr

/-- The struct `Result { Error error; Data interface{}; KeyVal map[string]interface{} }`. -/
structure Result where
  Error : Option String
  Data : Value
  KeyVal : List (String × Value)
deriving DecidableEq, Repr

/-- The struct `Request { stepContext *StepContext; Data interface{}; KeyVal map[string]interface{} }`;
`stepContext` is `none` for a nil pointer, else the address of the step whose
embedded `StepContext` it points to. -/
structure Request where
  stepContext : Option Addr
  Data : Value
  KeyVal : List (String × Value)
deriving DecidableEq, Repr

/-- The struct `stepContextVal { pipelineKey string; name string; index int; concurrent bool }`. -/
structure stepContextVal where
  pipelineKey : String
  name : String
  index : Int
  concurrent : Bool
deriving DecidableEq, Repr

/-- The struct `StepContext { ctx *stepContextVal }`; the metadata is read-only
once assigned, so the pointer is kept as an optional value (`none` is nil). -/
structure StepContext where
  ctx : Option stepContextVal
deriving DecidableEq, Repr

/-- Method `func (sc *StepContext) getCtx() *stepContextVal`. -/
def StepContext.getCtx (sc : StepContext) : Option stepContextVal :=
  sc.ctx

/-- Method `func (sc *StepContext) setCtx(ctx *stepContextVal)`. -/
def StepContext.setCtx (_sc : StepContext) (ctx : Option stepContextVal) : StepContext :=
  { ctx := ctx }

/-- The behaviour of a user function `func(ctx context.Context, r *Request) *Result`,
as the tree of the calls it makes on the values it can reach, ending in the
`*Result` it returns (`none` is a nil pointer):
`status r line` is `r.Status(line)`, `err c` reads `c.Err() != nil`,
`load r` reads `r.Data` and `r.KeyVal`, and `cancel s` is a call of `Cancel()`
on step `s` that takes place while the function runs. -/
inductive Prog where
  | ret (res : Option Result)
  | status (r : Addr) (line : String) (k : Prog)
  | err (c : ScopeId) (k : Bool → Prog)
  | load (r : Addr) (k : Value → List (String × Value) → Prog)
  | cancel (s : Addr) (k : Prog)

/-- A user function receives its scope and its request. -/
abbrev ExecFunc := ScopeId → Addr → Prog

/-- The struct `step { StepContext; execFunc func(...) *Result; cancelFunc context.CancelFunc }`;
a `cancelFunc` is nil or the cancel closure of one scope. -/
structure step where
  StepContext : pipeline.StepContext
  execFunc : Option ExecFunc
  cancelFunc : Option ScopeId

/-- The colour wrapper `color.New(color.FgBlue).SprintFunc()`: it puts the text
between an opening and a closing escape sequence, both empty when colouring is
switched off. -/
structure Paint where
  pre : String
  post : String
deriving DecidableEq, Repr

/-- Colouring switched off. -/
def Paint.plain : Paint := ⟨"", ""⟩

/-- ANSI blue foreground, closed by the reset sequence. -/
def Paint.ansiBlue : Paint := ⟨"\x1b[34m", "\x1b[0m"⟩

/-- The state of the program: the heap of steps, the heap of requests, the
cancelled flag of every scope created so far, the calls made to the sink so
far, and the colour setting. -/
structure World where
  steps : List step
  requests : List Request
  scopes : List Bool
  sent : List (String × String)
  paint : Paint

/-- The world before anything is allocated. -/
def World.init (p : Paint) : World :=
  { steps := [], requests := [], scopes := [], sent := [], paint := p }

/-- Modelled from the spec: `send(pipelineKey, line)` is not in `step.go`; it is
the fire-and-forget status sink, which takes a key and a line and returns
nothing.  The model records the call. -/
def send (w : World) (key line : String) : World :=
  { w with sent := w.sent ++ [(key, line)] }

/-- The call `context.WithCancel(context.Background())`: a new scope with no parent that
can be cancelled and no deadline, not cancelled; the cancel function returned
is the one of this scope. -/
def WithCancel (w : World) : ScopeId × World :=
  (w.scopes.length, { w with scopes := w.scopes ++ [false] })

/-- Calling the cancel function of scope `c`. -/
def callCancel (w : World) (c : ScopeId) : World :=
  { w with scopes := w.scopes.set c true }

/-- The test `c.Err() != nil`: whether scope `c` reports cancelled. -/
def Err (w : World) (c : ScopeId) : Bool :=
  w.scopes.getD c false

/-- The call `blue(stepText)`. -/
def blue (p : Paint) (s : String) : String :=
  p.pre ++ s ++ p.post

/-- The call `fmt.Sprintf("[step-%d]", index)`: the decimal form of the index, with a
minus sign when negative, between `[step-` and `]`. -/
def stepText (index : Int) : String :=
  "[step-" ++ toString index ++ "]"

/-- Method `func (sc *StepContext) Status(line string)`, given the `StepContext` the
receiver points to. -/
def StepContext.Status (w : World) (sc : StepContext) (line : String) : Except Fault World :=
  match sc.getCtx with
  | none => .error .nilDeref
  | some v =>
    let line := blue w.paint (stepText v.index) ++ "[" ++ v.name ++ "]: " ++ line
    .ok (send w v.pipelineKey line)

/-- Dereference of a `*StepContext`. -/
def derefStepContext (w : World) (p : Option Addr) : Except Fault StepContext :=
  match p with
  | none => .error .nilDeref
  | some a =>
    match w.steps[a]? with
    | none => .error .nilDeref
    | some st => .ok st.StepContext

/-- Method `func (r *Request) Status(line string)`. -/
def Request.Status (w : World) (r : Addr) (line : String) : Except Fault World :=
  match w.requests[r]? with
  | none => .error .nilDeref
  | some q =>
    match derefStepContext w q.stepContext with
    | .error e => .error e
    | .ok sc => StepContext.Status w sc line

/-- Method `Status` of a step, promoted from the embedded `StepContext`. -/
def step.Status (w : World) (s : Addr) (line : String) : Except Fault World :=
  match derefStepContext w (some s) with
  | .error e => .error e
  | .ok sc => StepContext.Status w sc line

/-- Method `setCtx` of a step, promoted from the embedded `StepContext`. -/
def step.setCtx (w : World) (s : Addr) (ctx : Option stepContextVal) : Except Fault World :=
  match w.steps[s]? with
  | none => .error .nilDeref
  | some st =>
    .ok { w with steps := w.steps.set s { st with StepContext := st.StepContext.setCtx ctx } }

/-- Method `func (s *step) Cancel()`: it calls the stored `cancelFunc`, which is a
nil function value until `Exec` has stored one. -/
def step.Cancel (w : World) (s : Addr) : Except Fault World :=
  match w.steps[s]? with
  | none => .error .nilDeref
  | some st =>
    match st.cancelFunc with
    | none => .error .nilDeref
    | some c => .ok (callCancel w c)

/-- Running a user function to its return. -/
def runProg : Prog → World → Except Fault (Option Result × World)
  | .ret res, w => .ok (res, w)
  | .status r line k, w =>
    match Request.Status w r line with
    | .error e => .error e
    | .ok w1 => runProg k w1
  | .err c k, w => runProg (k (Err w c)) w
  | .load r k, w =>
    match w.requests[r]? with
    | none => .error .nilDeref
    | some q => runProg (k q.Data q.KeyVal) w
  | .cancel s k, w =>
    match step.Cancel w s with
    | .error e => .error e
    | .ok w1 => runProg k w1

/-- The first two statements of `Exec`:
`request.stepContext = &s.StepContext` and
`ctx, s.cancelFunc = context.WithCancel(context.Background())`. -/
def step.enter (w : World) (s : Addr) (request : Addr) : Except Fault (ScopeId × World) :=
  match w.steps[s]?, w.requests[request]? with
  | some st, some q =>
    let w1 := { w with requests := w.requests.set request { q with stepContext := some s } }
    let (ctx, w2) := WithCancel w1
    .ok (ctx, { w2 with steps := w2.steps.set s { st with cancelFunc := some ctx } })
  | _, _ => .error .nilDeref

/-- Method `func (s *step) Exec(request *Request) *Result`. -/
def step.Exec (w : World) (s : Addr) (request : Addr) : Except Fault (Option Result × World) :=
  match step.enter w s request with
  | .error e => .error e
  | .ok (ctx, w1) =>
    match w1.steps[s]? with
    | none => .error .nilDeref
    | some st =>
      match st.execFunc with
      | none => .error .nilDeref
      | some f => runProg (f ctx request) w1

/-- Function `func NewStep(exec func(...) *Result) Step`: a new step holding `exec`, with
no identity metadata and no cancel function. -/
def NewStep (w : World) (exec : Option ExecFunc) : Addr × World :=
  (w.steps.length,
   { w with steps := w.steps ++ [{ StepContext := { ctx := none }, execFunc := exec, cancelFunc := none }] })

/-- Allocation of a request by the caller of `Exec`. -/
def newRequest (w : World) (q : Request) : Addr × World :=
  (w.requests.length, { w with requests := w.requests ++ [q] })

/-- Calling `Cancel()` on step `s` `n` times in a row. -/
def cancelN : Nat → World → Addr → Except Fault World
  | 0, w, _ => .ok w
  | n + 1, w, s =>
    match step.Cancel w s with
    | .error e => .error e
    | .ok w1 => cancelN n w1 s

/-- The text `sub` occurs in `text` as a contiguous run of characters. -/
def contains (text sub : String) : Prop :=
  sub.data <:+: text.data

instance (text sub : String) : Decidable (contains text sub) := by
  unfold contains
  infer_instance

/-- The calls made to the sink in the outcome of an operation (none when it panicked). -/
def sentOf : Except Fault World → List (String × String)
  | .ok w => w.sent
  | .error _ => []

/-- The world in which the user function is entered: request `r` (which held `q`)
bound to step `s` (which held `st`), a new scope appended, its cancel function
stored in the step. -/
def entered (w : World) (s : Addr) (st : step) (r : Addr) (q : Request) : World :=
  { steps := w.steps.set s { st with cancelFunc := some w.scopes.length }
    requests := w.requests.set r { q with stepContext := some s }
    scopes := w.scopes ++ [false]
    sent := w.sent
    paint := w.paint }

/-- First `Exec(request)` on step `s`, then `Cancel()` on it once `Exec` has returned;
the value is the Result that `Exec` returned. -/
def execThenCancel (w : World) (s : Addr) (request : Addr) : Except Fault (Option Result × World) :=
  match step.Exec w s request with
  | .error e => .error e
  | .ok (res, w1) =>
    match step.Cancel w1 s with
    | .error e => .error e
    | .ok w2 => .ok (res, w2)

/-- The call `send(key, text)` that a status line makes for the identity `v`. -/
def statusLine (p : Paint) (v : stepContextVal) (line : String) : String × String :=
  (v.pipelineKey, blue p (stepText v.index) ++ "[" ++ v.name ++ "]: " ++ line)

/-- Every `Status` call of the program is made on request `r`. -/
def Prog.onlyOn (r : Addr) : Prog → Prop
  | .ret _ => True
  | .status r1 _ k => r1 = r ∧ k.onlyOn r
  | .err _ k => ∀ b, (k b).onlyOn r
  | .load _ k => ∀ d kv, (k d kv).onlyOn r
  | .cancel _ k => k.onlyOn r

/-- The atomic actions on the state.  A run of the program, whatever the
interleaving of its `Exec` and `Cancel` calls, is a sequence of them: an `Exec`
call is its `enter` followed by the `status` and `cancel` actions of its user
function (`Prog.events`). -/
inductive Event where
  | newStep (exec : Option ExecFunc)
  | newRequest (q : Request)
  | setCtx (s : Addr) (ctx : Option stepContextVal)
  | enter (s r : Addr)
  | status (r : Addr) (line : String)
  | stepStatus (s : Addr) (line : String)
  | cancel (s : Addr)

/-- The effect of one action. -/
def Event.apply (w : World) : Event → Except Fault World
  | .newStep exec => .ok (pipeline.NewStep w exec).2
  | .newRequest q => .ok (pipeline.newRequest w q).2
  | .setCtx s ctx => step.setCtx w s ctx
  | .enter s r =>
    match step.enter w s r with
    | .error e => .error e
    | .ok (_, w1) => .ok w1
  | .status r line => Request.Status w r line
  | .stepStatus s line => step.Status w s line
  | .cancel s => step.Cancel w s

/-- The effect of a sequence of actions. -/
def runEvents : World → List Event → Except Fault World
  | w, [] => .ok w
  | w, e :: es =>
    match e.apply w with
    | .error x => .error x
    | .ok w1 => runEvents w1 es

/-- The actions that a user function performs when run from `w`. -/
def Prog.events : Prog → World → List Event
  | .ret _, _ => []
  | .status r line k, w =>
    .status r line ::
      (match Request.Status w r line with
       | .ok w1 => k.events w1
       | .error _ => [])
  | .err c k, w => (k (Err w c)).events w
  | .load r k, w =>
    match w.requests[r]? with
    | none => []
    | some q => (k q.Data q.KeyVal).events w
  | .cancel s k, w =>
    .cancel s ::
      (match step.Cancel w s with
       | .ok w1 => k.events w1
       | .error _ => [])

/-- In the run `es` from the empty world, scope `c` was created by an `Exec` on step `s`. -/
def CreatedBy (p : Paint) (es : List Event) (s : Addr) (c : ScopeId) : Prop :=
  ∃ (es0 : List Event) (r : Addr) (es1 : List Event) (w0 : World),
    es = es0 ++ Event.enter s r :: es1
      ∧ runEvents (World.init p) es0 = .ok w0 ∧ w0.scopes.length = c

/-- In the run `es` from the empty world, scope `c` was created by an `Exec` on
step `s`, and later `Cancel()` was called on `s` at a moment when `s` stored
the cancel function of `c`. -/
def CancelledByOwner (p : Paint) (es : List Event) (c : ScopeId) : Prop :=
  ∃ (es0 : List Event) (s r : Addr) (es1 es2 : List Event) (w0 w1 : World) (st : step),
    es = es0 ++ Event.enter s r :: es1 ++ Event.cancel s :: es2
      ∧ runEvents (World.init p) es0 = .ok w0 ∧ w0.scopes.length = c
      ∧ runEvents (World.init p) (es0 ++ Event.enter s r :: es1) = .ok w1
      ∧ w1.steps[s]? = some st ∧ st.cancelFunc = some c

/-- The lines of the `Status` calls in a sequence of actions, in order. -/
def statusLines : List Event → List String
  | [] => []
  | .status _ line :: es => line :: statusLines es
  | _ :: es => statusLines es

/-- Request `r` holds a back-reference to the `StepContext` of step `s`. -/
def boundTo (w : World) (r s : Addr) : Prop :=
  ∃ q, w.requests[r]? = some q ∧ q.stepContext = some s

/-- Identity of the step that produced the request in the example. -/
def parseCtx : stepContextVal := ⟨"run-0", "parse", 1, false⟩

/-- Identity of the step of scenario A: index 2, name `fetch`, pipeline key `run-1`. -/
def fetchCtx : stepContextVal := ⟨"run-1", "fetch", 2, false⟩

/-- A user function that reports a line, has its own step (address 1) cancelled
while it runs, and returns an error Result of its own making when it sees its
scope cancelled. -/
def fetchFunc : ExecFunc := fun c r =>
  .status r "done" (.cancel 1 (.err c (fun b =>
    .ret (some ⟨if b then some "cancelled" else none, .int 42, []⟩))))

/-- The user function of scenario B: it returns `Result{Error: nil, Data: 42}`
and makes no call. -/
def answerFunc : ExecFunc := fun _ _ => .ret (some ⟨none, .int 42, []⟩)

/-- The step at address 0 of the example: the producer of the request. -/
def parseStep : step := ⟨⟨some parseCtx⟩, some answerFunc, none⟩

/-- The step at address 1 of the example. -/
def fetchStep : step := ⟨⟨some fetchCtx⟩, some fetchFunc, none⟩

/-- The request of the example, still bound to the step that produced it. -/
def fetchReq : Request := ⟨some 0, .int 7, []⟩

/-- Two steps, neither executed yet, and one request. -/
def demoWorld : World :=
  { steps := [parseStep, fetchStep], requests := [fetchReq], scopes := [], sent := [],
    paint := Paint.ansiBlue }

/-- The example after `Exec` of step 1 on request 0 has returned. -/
def demoAfter : World :=
  { steps := [parseStep, ⟨⟨some fetchCtx⟩, some fetchFunc, some 0⟩],
    requests := [⟨some 1, .int 7, []⟩], scopes := [true],
    sent := [("run-1", "\x1b[34m[step-2]\x1b[0m[fetch]: done")],
    paint := Paint.ansiBlue }

/-- The example after `Exec` of step 0 on request 0 has returned: scope 0 was
created and is not cancelled. -/
def onceWorld : World :=
  { steps := [⟨⟨some parseCtx⟩, some answerFunc, some 0⟩, fetchStep],
    requests := [⟨some 0, .int 7, []⟩], scopes := [false], sent := [],
    paint := Paint.ansiBlue }

/-- The example after a second `Exec` of step 0 on request 0 has returned: scope 1
was created, and neither scope is cancelled. -/
def twiceWorld : World :=
  { steps := [⟨⟨some parseCtx⟩, some answerFunc, some 1⟩, fetchStep],
    requests := [⟨some 0, .int 7, []⟩], scopes := [false, false], sent := [],
    paint := Paint.ansiBlue }

/-- A step in flight: it stores the cancel function of scope 0, which is not cancelled. -/
def runningWorld : World :=
  { steps := [⟨⟨some fetchCtx⟩, some answerFunc, some 0⟩], requests := [⟨some 0, .null, []⟩],
    scopes := [false], sent := [], paint := Paint.plain }

/-- A user function whose step (address 0) is cancelled while it runs, and which
returns an error Result of its own making when it sees its scope cancelled. -/
def watchFunc : ExecFunc := fun c _ =>
  .cancel 0 (.err c (fun b => .ret (some ⟨if b then some "cancelled" else none, .int 42, []⟩)))

/-- A step built by `NewStep` on `watchFunc`, and a request. -/
def freshWorld : World :=
  (newRequest (NewStep (World.init Paint.plain) (some watchFunc)).2 ⟨none, .int 7, []⟩).2

/-- The world `freshWorld` after `Exec` of step 0 on request 0 has returned. -/
def freshAfter : World :=
  { steps := [⟨⟨none⟩, some watchFunc, some 0⟩], requests := [⟨some 0, .int 7, []⟩],
    scopes := [true], sent := [], paint := Paint.plain }

/-- A run in which step 0 is built, entered by `Exec` and then cancelled. -/
def demoEvents : List Event :=
  [.newStep (some answerFunc), .newRequest ⟨none, .null, []⟩, .enter 0 0, .cancel 0]

/-- The world reached by `demoEvents`. -/
def demoReached : World :=
  { steps := [⟨⟨none⟩, some answerFunc, some 0⟩], requests := [⟨some 0, .null, []⟩],
    scopes := [true], sent := [], paint := Paint.plain }

/-- A user function that reports one line on its request and returns nil. -/
def reportFunc : ExecFunc := fun _ r => .status r "x" (.ret none)

/-- A step built by `NewStep` on `reportFunc`, whose identity metadata was never
set, and a request. -/
def reportWorld : World :=
  (newRequest (NewStep (World.init Paint.plain) (some reportFunc)).2 ⟨none, .null, []⟩).2

theorem StepContext_Status_frame {w w1 : World} {sc : StepContext} {line : String}
    (h : StepContext.Status w sc line = .ok w1) :
    w1.steps = w.steps ∧ w1.requests = w.requests ∧ w1.scopes = w.scopes ∧ w1.paint = w.paint := by
  unfold StepContext.Status at h
  cases hc : sc.getCtx with
  | none => simp [hc] at h
  | some v =>
    simp only [hc, Except.ok.injEq] at h
    subst h
    simp [send]

theorem Request_Status_frame {w w1 : World} {r : Addr} {line : String}
    (h : Request.Status w r line = .ok w1) :
    w1.steps = w.steps ∧ w1.requests = w.requests ∧ w1.scopes = w.scopes ∧ w1.paint = w.paint := by
  unfold Request.Status at h
  cases hq : w.requests[r]? with
  | none => simp [hq] at h
  | some q =>
    simp only [hq] at h
    cases hd : derefStepContext w q.stepContext with
    | error e => simp [hd] at h
    | ok sc =>
      simp only [hd] at h
      exact StepContext_Status_frame h

theorem step_Cancel_frame {w w1 : World} {s : Addr} (h : step.Cancel w s = .ok w1) :
    w1.steps = w.steps ∧ w1.requests = w.requests ∧ w1.scopes.length = w.scopes.length
      ∧ w1.paint = w.paint ∧ w1.sent = w.sent := by
  unfold step.Cancel at h
  cases hs : w.steps[s]? with
  | none => simp [hs] at h
  | some st =>
    simp only [hs] at h
    cases hc : st.cancelFunc with
    | none => simp [hc] at h
    | some c =>
      simp only [hc, Except.ok.injEq] at h
      subst h
      simp [callCancel]

theorem runProg_frame (p : Prog) : ∀ (w w1 : World) (res : Option Result),
    runProg p w = .ok (res, w1) →
    w1.steps = w.steps ∧ w1.requests = w.requests ∧ w1.scopes.length = w.scopes.length
      ∧ w1.paint = w.paint := by
  induction p with
  | ret res0 =>
    intro w w1 res h
    simp only [runProg, Except.ok.injEq, Prod.mk.injEq] at h
    obtain ⟨-, rfl⟩ := h
    simp
  | status r line k ih =>
    intro w w1 res h
    simp only [runProg] at h
    cases hst : Request.Status w r line with
    | error e => simp [hst] at h
    | ok w2 =>
      simp only [hst] at h
      have h1 := Request_Status_frame hst
      have h2 := ih w2 w1 res h
      refine ⟨h2.1.trans h1.1, h2.2.1.trans h1.2.1, ?_, h2.2.2.2.trans h1.2.2.2⟩
      rw [h2.2.2.1, h1.2.2.1]
  | err c k ih =>
    intro w w1 res h
    simp only [runProg] at h
    exact ih _ w w1 res h
  | load r k ih =>
    intro w w1 res h
    simp only [runProg] at h
    cases hq : w.requests[r]? with
    | none => simp [hq] at h
    | some q =>
      simp only [hq] at h
      exact ih _ _ w w1 res h
  | cancel s k ih =>
    intro w w1 res h
    simp only [runProg] at h
    cases hc : step.Cancel w s with
    | error e => simp [hc] at h
    | ok w2 =>
      simp only [hc] at h
      have h1 := step_Cancel_frame hc
      have h2 := ih w2 w1 res h
      exact ⟨h2.1.trans h1.1, h2.2.1.trans h1.2.1, h2.2.2.1.trans h1.2.2.1, h2.2.2.2.trans h1.2.2.2.1⟩

/-- Claim C6. For every identity metadata `v` and every line, `StepContext.Status(line)`
makes exactly one call to the sink and changes nothing else: the key is
`v.pipelineKey` and the text is the coloured tag of `[step-<index>]`, then
`[<name>]: `, then the line unchanged, so that the index and the name are each
written once into the tag. -/
theorem StepContext_Status_sends_once (w : World) (v : stepContextVal) (line : String) :
    ∃ text : String,
      StepContext.Status w ⟨some v⟩ line = .ok { w with sent := w.sent ++ [(v.pipelineKey, text)] }
      ∧ text = blue w.paint ("[step-" ++ toString v.index ++ "]") ++ "[" ++ v.name ++ "]: " ++ line
      ∧ text.data = w.paint.pre.data ++ "[step-".data ++ (toString v.index).data ++ "]".data
          ++ w.paint.post.data ++ "[".data ++ v.name.data ++ "]: ".data ++ line.data := by
  refine ⟨_, rfl, rfl, ?_⟩
  simp [blue, stepText, String.data_append, List.append_assoc]

/-- Claim C7, as stated, fails: with ANSI colouring the text sent for index 2, name
`fetch` and line `done` has the closing escape sequence between `[step-2]` and
`[fetch]`, so it does not contain `[step-2][fetch]: done`. -/
theorem Status_coloured_text_lacks_plain_tag :
    sentOf (StepContext.Status (World.init Paint.ansiBlue) ⟨some fetchCtx⟩ "done")
        = [("run-1", "\x1b[34m[step-2]\x1b[0m[fetch]: done")]
      ∧ ¬ contains "\x1b[34m[step-2]\x1b[0m[fetch]: done" "[step-2][fetch]: done" := by
  decide

/-- Claim C7, amended. The text sent is the coloured tag of `[step-<index>]` followed
by `[<name>]: <line>`; it contains `[step-<index>]` and `[<name>]: <line>` as
contiguous substrings, and when the colour wrapper closes with the empty
sequence (colouring off) it contains `[step-<index>][<name>]: <line>`. -/
theorem Status_text_parts (w : World) (v : stepContextVal) (line : String) :
    ∃ text : String,
      StepContext.Status w ⟨some v⟩ line = .ok (send w v.pipelineKey text)
      ∧ text = blue w.paint ("[step-" ++ toString v.index ++ "]") ++ ("[" ++ v.name ++ "]: " ++ line)
      ∧ contains text ("[step-" ++ toString v.index ++ "]")
      ∧ contains text ("[" ++ v.name ++ "]: " ++ line)
      ∧ (w.paint.post = "" →
          contains text ("[step-" ++ toString v.index ++ "]" ++ "[" ++ v.name ++ "]: " ++ line)) := by
  refine ⟨_, rfl, ?_, ?_, ?_, ?_⟩
  · simp [StepContext.Status, StepContext.getCtx, stepText, String.append_assoc]
  · exact ⟨w.paint.pre.data, w.paint.post.data ++ ("[" ++ v.name ++ "]: " ++ line).data, by
      simp [blue, stepText, String.data_append, List.append_assoc]⟩
  · exact ⟨(blue w.paint ("[step-" ++ toString v.index ++ "]")).data, [], by
      simp [stepText, String.data_append, List.append_assoc]⟩
  · intro hpost
    exact ⟨w.paint.pre.data, [], by
      simp [blue, stepText, hpost, String.data_append, List.append_assoc]⟩

/-- Claim C2 fails on the code: on a step fresh from `NewStep`, `Cancel()` calls the
nil `cancelFunc` and panics, for every user function and in every world. -/
theorem Cancel_before_Exec_panics (w : World) (exec : Option ExecFunc) :
    step.Cancel (NewStep w exec).2 (NewStep w exec).1 = .error .nilDeref := by
  simp [step.Cancel, NewStep]

/-- Claim C4. When a step stores the cancel function of an existing scope `c`, one
`Cancel()` succeeds and makes `c` report cancelled, and for every `n ≥ 1` the
state after `n` calls of `Cancel()` is the state after one call. -/
theorem Cancel_idempotent (w : World) (s : Addr) (st : step) (c : ScopeId)
    (hs : w.steps[s]? = some st) (hc : st.cancelFunc = some c) (hlt : c < w.scopes.length) :
    step.Cancel w s = .ok (callCancel w c)
      ∧ Err (callCancel w c) c = true
      ∧ ∀ n, 1 ≤ n → cancelN n w s = .ok (callCancel w c) := by
  have h1 : ∀ w' : World, w'.steps = w.steps → step.Cancel w' s = .ok (callCancel w' c) := by
    intro w' hw
    simp [step.Cancel, hw, hs, hc]
  have h2 : callCancel (callCancel w c) c = callCancel w c := by
    simp [callCancel, List.set_set]
  refine ⟨h1 w rfl, ?_, ?_⟩
  · simp [Err, callCancel, List.getD, hlt]
  · intro n hn
    obtain ⟨m, rfl⟩ : ∃ m, n = m + 1 := ⟨n - 1, by omega⟩
    clear hn
    induction m with
    | zero => simp [cancelN, h1 w rfl]
    | succ k ih =>
      simp only [cancelN, h1 w rfl] at ih ⊢
      rw [h1 (callCancel w c) rfl, h2]
      exact ih

/-! ## Entering `Exec` -/

theorem enter_eq {w : World} {s r : Addr} {st : step} {q : Request}
    (hs : w.steps[s]? = some st) (hq : w.requests[r]? = some q) :
    step.enter w s r = .ok (w.scopes.length, entered w s st r q) := by
  simp [step.enter, hs, hq, WithCancel, entered]

theorem entered_step {w : World} {s r : Addr} {st : step} {q : Request}
    (hs : w.steps[s]? = some st) :
    (entered w s st r q).steps[s]? = some { st with cancelFunc := some w.scopes.length } := by
  have hlt : s < w.steps.length := by
    rcases Nat.lt_or_ge s w.steps.length with h | h
    · exact h
    · rw [List.getElem?_eq_none h] at hs
      cases hs
  simp [entered, List.getElem?_set, hlt]

theorem Exec_eq {w : World} {s r : Addr} {st : step} {q : Request} {f : ExecFunc}
    (hs : w.steps[s]? = some st) (hq : w.requests[r]? = some q) (hf : st.execFunc = some f) :
    step.Exec w s r = runProg (f w.scopes.length r) (entered w s st r q) := by
  simp [step.Exec, enter_eq hs hq, entered_step hs, hf]

theorem Exec_inv {w w2 : World} {s r : Addr} {res : Option Result}
    (h : step.Exec w s r = .ok (res, w2)) :
    ∃ st q f, w.steps[s]? = some st ∧ w.requests[r]? = some q ∧ st.execFunc = some f
      ∧ runProg (f w.scopes.length r) (entered w s st r q) = .ok (res, w2) := by
  cases hs : w.steps[s]? with
  | none => simp [step.Exec, step.enter, hs] at h
  | some st =>
    cases hq : w.requests[r]? with
    | none => simp [step.Exec, step.enter, hs, hq] at h
    | some q =>
      cases hf : st.execFunc with
      | none => simp [step.Exec, enter_eq hs hq, entered_step hs, hf] at h
      | some f =>
        rw [Exec_eq hs hq hf] at h
        exact ⟨st, q, f, rfl, rfl, hf, h⟩

/-- After `Exec` has returned, the step stores the cancel function of the scope
of that call, and that scope exists. -/
theorem Exec_handle {w w2 : World} {s r : Addr} {res : Option Result}
    (h : step.Exec w s r = .ok (res, w2)) :
    (∃ st2, w2.steps[s]? = some st2 ∧ st2.cancelFunc = some w.scopes.length)
      ∧ w2.scopes.length = w.scopes.length + 1 := by
  obtain ⟨st, q, f, hs, hq, hf, hrun⟩ := Exec_inv h
  have hfr := runProg_frame _ _ _ _ hrun
  refine ⟨⟨{ st with cancelFunc := some w.scopes.length }, ?_, rfl⟩, ?_⟩
  · rw [hfr.1]
    exact entered_step hs
  · rw [hfr.2.2.1]
    simp [entered]

theorem Err_callCancel_self {w : World} {c : Nat} (h : c < w.scopes.length) :
    Err (callCancel w c) c = true := by
  simp [Err, callCancel, List.getD, h]

theorem Err_callCancel_other {w : World} {c c1 : Nat} (h : c1 ≠ c) :
    Err (callCancel w c) c1 = Err w c1 := by
  simp [Err, callCancel, List.getD, List.getElem?_set_ne (Ne.symm h)]

theorem Cancel_eq {w : World} {s : Addr} {st : step} {c : ScopeId}
    (hs : w.steps[s]? = some st) (hc : st.cancelFunc = some c) :
    step.Cancel w s = .ok (callCancel w c) := by
  simp [step.Cancel, hs, hc]

/-- Claim C1. For every user function `f` and every request, `Exec` on a step holding
`f` has exactly the outcome of `f` run on the fresh scope and the request, from
the world in which the request is bound and the scope stored: the Result is the
one `f` returned, with nothing added or replaced.  The user function may be one
whose scope is cancelled while it runs; `Cancel` has no Result among its outputs. -/
theorem Exec_returns_the_function_result (w : World) (s r : Addr) (st : step) (q : Request)
    (f : ExecFunc) (hs : w.steps[s]? = some st) (hq : w.requests[r]? = some q)
    (hf : st.execFunc = some f) :
    step.enter w s r = .ok (w.scopes.length, entered w s st r q)
      ∧ step.Exec w s r = runProg (f w.scopes.length r) (entered w s st r q)
      ∧ ∀ res w2, runProg (f w.scopes.length r) (entered w s st r q) = .ok (res, w2) →
          step.Exec w s r = .ok (res, w2) := by
  refine ⟨enter_eq hs hq, Exec_eq hs hq hf, ?_⟩
  intro res w2 h
  rw [Exec_eq hs hq hf, h]

/-- Claim C3. When `Exec` has returned, `Cancel()` on the same step does not fail, the
Result that `Exec` returned is still the value of the two calls in sequence, and
the only change to the state is that the scope of the finished call reports
cancelled: steps, requests, sink calls and all other scopes are as they were. -/
theorem Cancel_after_Exec_returned (w w2 : World) (s r : Addr) (res : Option Result)
    (h : step.Exec w s r = .ok (res, w2)) :
    step.Cancel w2 s = .ok (callCancel w2 w.scopes.length)
      ∧ execThenCancel w s r = .ok (res, callCancel w2 w.scopes.length)
      ∧ (callCancel w2 w.scopes.length).steps = w2.steps
      ∧ (callCancel w2 w.scopes.length).requests = w2.requests
      ∧ (callCancel w2 w.scopes.length).sent = w2.sent
      ∧ Err (callCancel w2 w.scopes.length) w.scopes.length = true
      ∧ ∀ c, c ≠ w.scopes.length → Err (callCancel w2 w.scopes.length) c = Err w2 c := by
  obtain ⟨⟨st2, hs2, hc2⟩, hlen⟩ := Exec_handle h
  have hcan := Cancel_eq hs2 hc2
  refine ⟨hcan, ?_, rfl, rfl, rfl, ?_, ?_⟩
  · simp [execThenCancel, h, hcan]
  · exact Err_callCancel_self (by omega)
  · intro c hc
    exact Err_callCancel_other hc

/-- Claim C8. When `Exec` has run twice on a step, creating scope `c1` then scope `c2`,
the two scopes are distinct, the second call has overwritten the stored cancel
function of `c1` with the one of `c2`, and a following `Cancel()` cancels `c2`
and leaves `c1` in the state it had. -/
theorem Exec_again_overwrites_the_handle (w w1 w2 : World) (s r r2 : Addr)
    (res1 res2 : Option Result)
    (h1 : step.Exec w s r = .ok (res1, w1)) (h2 : step.Exec w1 s r2 = .ok (res2, w2)) :
    w.scopes.length < w1.scopes.length
      ∧ (∃ st1, w1.steps[s]? = some st1 ∧ st1.cancelFunc = some w.scopes.length)
      ∧ (∃ st2, w2.steps[s]? = some st2 ∧ st2.cancelFunc = some w1.scopes.length)
      ∧ step.Cancel w2 s = .ok (callCancel w2 w1.scopes.length)
      ∧ Err (callCancel w2 w1.scopes.length) w1.scopes.length = true
      ∧ Err (callCancel w2 w1.scopes.length) w.scopes.length = Err w2 w.scopes.length := by
  obtain ⟨hst1, hlen1⟩ := Exec_handle h1
  obtain ⟨⟨st2, hs2, hc2⟩, hlen2⟩ := Exec_handle h2
  refine ⟨by omega, hst1, ⟨st2, hs2, hc2⟩, Cancel_eq hs2 hc2, ?_, ?_⟩
  · exact Err_callCancel_self (by omega)
  · exact Err_callCancel_other (by omega)

/-! ## Runs of atomic actions -/

theorem runEvents_append (es es1 : List Event) : ∀ w : World,
    runEvents w (es ++ es1) =
      match runEvents w es with
      | .error x => .error x
      | .ok w1 => runEvents w1 es1 := by
  induction es with
  | nil => intro w; rfl
  | cons e es ih =>
    intro w
    simp only [List.cons_append, runEvents]
    cases he : e.apply w with
    | error x => rfl
    | ok w1 => exact ih w1

theorem runEvents_snoc {w w2 : World} {es : List Event} {e : Event}
    (h : runEvents w (es ++ [e]) = .ok w2) :
    ∃ w1, runEvents w es = .ok w1 ∧ e.apply w1 = .ok w2 := by
  rw [runEvents_append] at h
  cases h1 : runEvents w es with
  | error x => simp [h1] at h
  | ok w1 =>
    simp only [h1, runEvents] at h
    cases h2 : e.apply w1 with
    | error x => simp [h2] at h
    | ok w3 =>
      simp only [h2, Except.ok.injEq] at h
      exact ⟨w1, rfl, by rw [← h]; exact h2⟩

theorem runProg_events (p : Prog) : ∀ (w w1 : World) (res : Option Result),
    runProg p w = .ok (res, w1) → runEvents w (p.events w) = .ok w1 := by
  induction p with
  | ret res0 =>
    intro w w1 res h
    simp only [runProg, Except.ok.injEq, Prod.mk.injEq] at h
    simp [Prog.events, runEvents, h.2]
  | status r line k ih =>
    intro w w1 res h
    simp only [runProg] at h
    cases hst : Request.Status w r line with
    | error e => simp [hst] at h
    | ok w2 =>
      simp only [hst] at h
      simp only [Prog.events, runEvents, Event.apply, hst]
      exact ih w2 w1 res h
  | err c k ih =>
    intro w w1 res h
    simp only [runProg] at h
    exact ih _ w w1 res h
  | load r k ih =>
    intro w w1 res h
    simp only [runProg] at h
    cases hq : w.requests[r]? with
    | none => simp [hq] at h
    | some q =>
      simp only [hq] at h
      simp only [Prog.events, hq]
      exact ih _ _ w w1 res h
  | cancel s k ih =>
    intro w w1 res h
    simp only [runProg] at h
    cases hc : step.Cancel w s with
    | error e => simp [hc] at h
    | ok w2 =>
      simp only [hc] at h
      simp only [Prog.events, runEvents, Event.apply, hc]
      exact ih w2 w1 res h

/-- An `Exec` call that returns is the run of its `enter` action followed by the
actions of the user function. -/
theorem Exec_as_events {w w2 : World} {s r : Addr} {res : Option Result}
    (h : step.Exec w s r = .ok (res, w2)) :
    ∃ st q f, w.steps[s]? = some st ∧ w.requests[r]? = some q ∧ st.execFunc = some f
      ∧ runEvents w (Event.enter s r :: (f w.scopes.length r).events (entered w s st r q))
          = .ok w2 := by
  obtain ⟨st, q, f, hs, hq, hf, hrun⟩ := Exec_inv h
  refine ⟨st, q, f, hs, hq, hf, ?_⟩
  simp only [runEvents, Event.apply, enter_eq hs hq]
  exact runProg_events _ _ _ _ hrun

theorem CreatedBy_snoc {p : Paint} {es : List Event} {s : Addr} {c : ScopeId} (e : Event)
    (h : CreatedBy p es s c) : CreatedBy p (es ++ [e]) s c := by
  obtain ⟨es0, r, es1, w0, rfl, h0, hc⟩ := h
  exact ⟨es0, r, es1 ++ [e], w0, by simp, h0, hc⟩

theorem CancelledByOwner_snoc {p : Paint} {es : List Event} {c : ScopeId} (e : Event)
    (h : CancelledByOwner p es c) : CancelledByOwner p (es ++ [e]) c := by
  obtain ⟨es0, s, r, es1, es2, w0, w1, st, rfl, h0, hc, h1, hs, hh⟩ := h
  exact ⟨es0, s, r, es1, es2 ++ [e], w0, w1, st, by simp, h0, hc, h1, hs, hh⟩

theorem Event_apply_handle {w w2 : World} {e : Event} {s : Addr} {st2 : step} {c : ScopeId}
    (h : e.apply w = .ok w2) (hs2 : w2.steps[s]? = some st2) (hc2 : st2.cancelFunc = some c) :
    (∃ st, w.steps[s]? = some st ∧ st.cancelFunc = some c)
      ∨ ∃ r, e = Event.enter s r ∧ c = w.scopes.length := by
  cases e with
  | newStep exec =>
    simp only [Event.apply, NewStep, Except.ok.injEq] at h
    subst h
    simp only [List.getElem?_append] at hs2
    split at hs2
    · exact Or.inl ⟨st2, hs2, hc2⟩
    · rename_i hge
      rcases Nat.eq_zero_or_pos (s - w.steps.length) with h0 | h0
      · simp [h0] at hs2
        subst hs2
        simp at hc2
      · have : ([({ StepContext := { ctx := none }, execFunc := exec, cancelFunc := none } : step)])[s - w.steps.length]? = none :=
          List.getElem?_eq_none (by simp only [List.length_singleton]; omega)
        rw [this] at hs2
        cases hs2
  | newRequest q =>
    simp only [Event.apply, newRequest, Except.ok.injEq] at h
    subst h
    exact Or.inl ⟨st2, hs2, hc2⟩
  | setCtx s1 ctx =>
    simp only [Event.apply, step.setCtx] at h
    cases hs1 : w.steps[s1]? with
    | none => simp [hs1] at h
    | some st1 =>
      simp only [hs1, Except.ok.injEq] at h
      subst h
      simp only [List.getElem?_set] at hs2
      split at hs2
      · rename_i heq
        subst heq
        split at hs2
        · simp only [Option.some.injEq] at hs2
          subst hs2
          exact Or.inl ⟨st1, hs1, hc2⟩
        · cases hs2
      · exact Or.inl ⟨st2, hs2, hc2⟩
  | enter s1 r =>
    simp only [Event.apply] at h
    cases hs1 : w.steps[s1]? with
    | none => simp [step.enter, hs1] at h
    | some st1 =>
      cases hq : w.requests[r]? with
      | none => simp [step.enter, hs1, hq] at h
      | some q =>
        simp only [enter_eq hs1 hq, Except.ok.injEq] at h
        subst h
        simp only [entered, List.getElem?_set] at hs2
        split at hs2
        · rename_i heq
          subst heq
          split at hs2
          · simp only [Option.some.injEq] at hs2
            subst hs2
            simp only [Option.some.injEq] at hc2
            exact Or.inr ⟨r, rfl, hc2.symm⟩
          · cases hs2
        · exact Or.inl ⟨st2, hs2, hc2⟩
  | status r line =>
    simp only [Event.apply] at h
    rw [(Request_Status_frame h).1] at hs2
    exact Or.inl ⟨st2, hs2, hc2⟩
  | stepStatus s1 line =>
    simp only [Event.apply, step.Status] at h
    cases hd : derefStepContext w (some s1) with
    | error x => simp [hd] at h
    | ok sc =>
      simp only [hd] at h
      rw [(StepContext_Status_frame h).1] at hs2
      exact Or.inl ⟨st2, hs2, hc2⟩
  | cancel s1 =>
    simp only [Event.apply] at h
    rw [(step_Cancel_frame h).1] at hs2
    exact Or.inl ⟨st2, hs2, hc2⟩

theorem Err_append_false {l : List Bool} {c : Nat} (h : (l ++ [false]).getD c false = true) :
    l.getD c false = true := by
  simp only [List.getD_eq_getElem?_getD, List.getElem?_append] at h ⊢
  split at h
  · exact h
  · rename_i hge
    rcases Nat.eq_zero_or_pos (c - l.length) with h0 | h0
    · simp [h0] at h
    · have : ([false] : List Bool)[c - l.length]? = none :=
        List.getElem?_eq_none (by simp only [List.length_singleton]; omega)
      simp [this] at h

theorem Event_apply_scope {w w2 : World} {e : Event} {c : Nat}
    (h : e.apply w = .ok w2) (hc : Err w2 c = true) :
    Err w c = true ∨ ∃ s st, e = Event.cancel s ∧ w.steps[s]? = some st ∧ st.cancelFunc = some c := by
  cases e with
  | newStep exec =>
    simp only [Event.apply, NewStep, Except.ok.injEq] at h
    subst h
    exact Or.inl hc
  | newRequest q =>
    simp only [Event.apply, newRequest, Except.ok.injEq] at h
    subst h
    exact Or.inl hc
  | setCtx s1 ctx =>
    simp only [Event.apply, step.setCtx] at h
    cases hs1 : w.steps[s1]? with
    | none => simp [hs1] at h
    | some st1 =>
      simp only [hs1, Except.ok.injEq] at h
      subst h
      exact Or.inl hc
  | enter s1 r =>
    simp only [Event.apply] at h
    cases hs1 : w.steps[s1]? with
    | none => simp [step.enter, hs1] at h
    | some st1 =>
      cases hq : w.requests[r]? with
      | none => simp [step.enter, hs1, hq] at h
      | some q =>
        simp only [enter_eq hs1 hq, Except.ok.injEq] at h
        subst h
        exact Or.inl (Err_append_false hc)
  | status r line =>
    simp only [Event.apply] at h
    left
    simpa [Err, (Request_Status_frame h).2.2.1] using hc
  | stepStatus s1 line =>
    simp only [Event.apply, step.Status] at h
    cases hd : derefStepContext w (some s1) with
    | error x => simp [hd] at h
    | ok sc =>
      simp only [hd] at h
      left
      simpa [Err, (StepContext_Status_frame h).2.2.1] using hc
  | cancel s1 =>
    simp only [Event.apply, step.Cancel] at h
    cases hs1 : w.steps[s1]? with
    | none => simp [hs1] at h
    | some st1 =>
      simp only [hs1] at h
      cases hc1 : st1.cancelFunc with
      | none => simp [hc1] at h
      | some c1 =>
        simp only [hc1, Except.ok.injEq] at h
        subst h
        by_cases hcc : c = c1
        · subst hcc
          exact Or.inr ⟨s1, st1, rfl, hs1, hc1⟩
        · rw [Err_callCancel_other hcc] at hc
          exact Or.inl hc

theorem reachable_invariant (p : Paint) (es : List Event) : ∀ w : World,
    runEvents (World.init p) es = .ok w →
    (∀ s st c, w.steps[s]? = some st → st.cancelFunc = some c → CreatedBy p es s c)
      ∧ ∀ c, Err w c = true → CancelledByOwner p es c := by
  induction es using List.reverseRecOn with
  | nil =>
    intro w h
    simp only [runEvents, Except.ok.injEq] at h
    subst h
    constructor
    · intro s st c hs _
      simp [World.init] at hs
    · intro c hc
      simp [Err, World.init] at hc
  | append_singleton es e ih =>
    intro w2 h
    obtain ⟨w, hw, he⟩ := runEvents_snoc h
    obtain ⟨ihH, ihC⟩ := ih w hw
    constructor
    · intro s st2 c hs2 hc2
      rcases Event_apply_handle he hs2 hc2 with ⟨st, hs, hc⟩ | ⟨r, rfl, rfl⟩
      · exact CreatedBy_snoc e (ihH s st c hs hc)
      · exact ⟨es, r, [], w, rfl, hw, rfl⟩
    · intro c hc
      rcases Event_apply_scope he hc with hold | ⟨s, st, rfl, hs, hh⟩
      · exact CancelledByOwner_snoc e (ihC c hold)
      · obtain ⟨es0, r, es1, w0, rfl, h0, hlen⟩ := ihH s st c hs hh
        exact ⟨es0, s, r, es1, [], w0, w, st, by simp, h0, hlen, hw, hs, hh⟩

/-- Claim C9. In every state reached from the empty world by the operations of the step
core, the scope that `Exec` hands to the user function is new and not cancelled
on entry and entering leaves all other scopes as they were; and a scope reports
cancelled only if it was created by an `Exec` on some step `s` and `Cancel()` was
later called on that same `s` while `s` stored the cancel function of that
scope.  No other operation, and no passing of time, cancels a scope. -/
theorem scope_cancelled_only_by_Cancel_on_its_step (p : Paint) (es : List Event) (w : World)
    (h : runEvents (World.init p) es = .ok w) :
    (∀ s r c w1, step.enter w s r = .ok (c, w1) →
        c = w.scopes.length ∧ Err w c = false ∧ Err w1 c = false
          ∧ ∀ c0 : Nat, c0 ≠ c → Err w1 c0 = Err w c0)
      ∧ ∀ c, Err w c = true → CancelledByOwner p es c := by
  refine ⟨?_, (reachable_invariant p es w h).2⟩
  intro s r c w1 hen
  cases hs : w.steps[s]? with
  | none => simp [step.enter, hs] at hen
  | some st =>
    cases hq : w.requests[r]? with
    | none => simp [step.enter, hs, hq] at hen
    | some q =>
      simp only [enter_eq hs hq, Except.ok.injEq, Prod.mk.injEq] at hen
      obtain ⟨rfl, rfl⟩ := hen
      refine ⟨rfl, ?_, ?_, ?_⟩
      · simp [Err, List.getD_eq_getElem?_getD]
      · simp [Err, entered, List.getD_eq_getElem?_getD]
      · intro c0 hc0
        simp only [Err, entered, List.getD_eq_getElem?_getD, List.getElem?_append]
        split
        · rfl
        · rename_i hge
          have h1 : w.scopes[c0]? = none := List.getElem?_eq_none (by omega)
          have h2 : ([false] : List Bool)[c0 - w.scopes.length]? = none :=
            List.getElem?_eq_none (by simp only [List.length_singleton]; omega)
          simp [h1, h2]

/-! ## Status lines during `Exec` -/

theorem Request_Status_bound {w : World} {r s : Addr} {q : Request} {st : step}
    {v : stepContextVal} (hq : w.requests[r]? = some q) (hb : q.stepContext = some s)
    (hs : w.steps[s]? = some st) (hv : st.StepContext.ctx = some v) (line : String) :
    Request.Status w r line = .ok (send w v.pipelineKey (statusLine w.paint v line).2) := by
  simp [Request.Status, hq, hb, derefStepContext, hs, StepContext.Status, StepContext.getCtx, hv,
    statusLine]

theorem runProg_sent_bound (p : Prog) : ∀ (w w1 : World) (res : Option Result) (r s : Addr)
    (q : Request) (st : step) (v : stepContextVal),
    p.onlyOn r → w.requests[r]? = some q → q.stepContext = some s → w.steps[s]? = some st →
    st.StepContext.ctx = some v → runProg p w = .ok (res, w1) →
    w1.sent = w.sent ++ (statusLines (p.events w)).map (statusLine w.paint v) := by
  induction p with
  | ret res0 =>
    intro w w1 res r s q st v _ _ _ _ _ h
    simp only [runProg, Except.ok.injEq, Prod.mk.injEq] at h
    obtain ⟨-, rfl⟩ := h
    simp [Prog.events, statusLines]
  | status r1 line k ih =>
    intro w w1 res r s q st v hon hq hb hs hv h
    obtain ⟨rfl, hk⟩ := hon
    have hst := Request_Status_bound hq hb hs hv line
    simp only [runProg, hst] at h
    have hl :=
      ih (send w v.pipelineKey (statusLine w.paint v line).2) w1 res r1 s q st v hk hq hb hs hv h
    rw [hl]
    simp [Prog.events, hst, statusLines, send, statusLine]
  | err c k ih =>
    intro w w1 res r s q st v hon hq hb hs hv h
    simp only [runProg] at h
    simp only [Prog.events]
    exact ih _ w w1 res r s q st v (hon _) hq hb hs hv h
  | load r1 k ih =>
    intro w w1 res r s q st v hon hq hb hs hv h
    simp only [runProg] at h
    cases hq1 : w.requests[r1]? with
    | none => simp [hq1] at h
    | some q1 =>
      simp only [hq1] at h
      simp only [Prog.events, hq1]
      exact ih _ _ w w1 res r s q st v (hon _ _) hq hb hs hv h
  | cancel s1 k ih =>
    intro w w1 res r s q st v hon hq hb hs hv h
    simp only [runProg] at h
    cases hc : step.Cancel w s1 with
    | error e => simp [hc] at h
    | ok w2 =>
      simp only [hc] at h
      have hfr := step_Cancel_frame hc
      have hl := ih w2 w1 res r s q st v hon (by rw [hfr.2.1]; exact hq) hb
        (by rw [hfr.1]; exact hs) hv h
      simp only [Prog.events, hc, statusLines]
      rw [hl, hfr.2.2.2.2, hfr.2.2.2.1]

theorem entered_request {w : World} {s r : Addr} {st : step} {q : Request}
    (hq : w.requests[r]? = some q) :
    (entered w s st r q).requests[r]? = some { q with stepContext := some s } := by
  have hlt : r < w.requests.length := by
    rcases Nat.lt_or_ge r w.requests.length with h | h
    · exact h
    · rw [List.getElem?_eq_none h] at hq
      cases hq
  simp [entered, List.getElem?_set, hlt]

/-- An action other than the entry of an `Exec` on request `r` leaves the
back-reference of `r` as it is. -/
theorem Event_apply_boundTo {w w2 : World} {e : Event} {r s : Addr}
    (h : e.apply w = .ok w2) (hne : ∀ s1, e ≠ Event.enter s1 r) (hb : boundTo w r s) :
    boundTo w2 r s := by
  obtain ⟨q, hq, hqs⟩ := hb
  have hlt : r < w.requests.length := by
    rcases Nat.lt_or_ge r w.requests.length with h1 | h1
    · exact h1
    · rw [List.getElem?_eq_none h1] at hq
      cases hq
  cases e with
  | newStep exec =>
    simp only [Event.apply, NewStep, Except.ok.injEq] at h
    subst h
    exact ⟨q, hq, hqs⟩
  | newRequest q1 =>
    simp only [Event.apply, newRequest, Except.ok.injEq] at h
    subst h
    exact ⟨q, by simp [List.getElem?_append_left hlt, hq], hqs⟩
  | setCtx s1 ctx =>
    simp only [Event.apply, step.setCtx] at h
    cases hs1 : w.steps[s1]? with
    | none => simp [hs1] at h
    | some st1 =>
      simp only [hs1, Except.ok.injEq] at h
      subst h
      exact ⟨q, hq, hqs⟩
  | enter s1 r1 =>
    have hr : r1 ≠ r := fun hrr => hne s1 (by rw [hrr])
    simp only [Event.apply] at h
    cases hs1 : w.steps[s1]? with
    | none => simp [step.enter, hs1] at h
    | some st1 =>
      cases hq1 : w.requests[r1]? with
      | none => simp [step.enter, hs1, hq1] at h
      | some q1 =>
        simp only [enter_eq hs1 hq1, Except.ok.injEq] at h
        subst h
        exact ⟨q, by simp [entered, List.getElem?_set_ne hr, hq], hqs⟩
  | status r1 line =>
    simp only [Event.apply] at h
    exact ⟨q, by rw [(Request_Status_frame h).2.1]; exact hq, hqs⟩
  | stepStatus s1 line =>
    simp only [Event.apply, step.Status] at h
    cases hd : derefStepContext w (some s1) with
    | error x => simp [hd] at h
    | ok sc =>
      simp only [hd] at h
      exact ⟨q, by rw [(StepContext_Status_frame h).2.1]; exact hq, hqs⟩
  | cancel s1 =>
    simp only [Event.apply] at h
    exact ⟨q, by rw [(step_Cancel_frame h).2.1]; exact hq, hqs⟩

theorem runEvents_boundTo (es : List Event) : ∀ (w w1 : World) (r s : Addr),
    (∀ e ∈ es, ∀ s1, e ≠ Event.enter s1 r) → boundTo w r s → runEvents w es = .ok w1 →
    boundTo w1 r s := by
  induction es with
  | nil =>
    intro w w1 r s _ hb h
    simp only [runEvents, Except.ok.injEq] at h
    subst h
    exact hb
  | cons e es ih =>
    intro w w1 r s hne hb h
    simp only [runEvents] at h
    cases he : e.apply w with
    | error x => simp [he] at h
    | ok w2 =>
      simp only [he] at h
      exact ih w2 w1 r s (fun e1 h1 => hne e1 (List.mem_cons_of_mem _ h1))
        (Event_apply_boundTo he (hne e (List.mem_cons_self _ _)) hb) h

/-- A `Status` call on a request bound to step `s` is the `Status` call of `s`. -/
theorem Request_Status_of_boundTo {w : World} {r s : Addr} (hb : boundTo w r s) (line : String) :
    Request.Status w r line = step.Status w s line := by
  obtain ⟨q, hq, hqs⟩ := hb
  simp [Request.Status, step.Status, hq, hqs]

/-- Claim C5, as stated, fails.  In the example, the request is handed to `Exec` of the
step `fetch` (index 2) and, before that call's function reports, to `Exec` of the
step `parse` (index 1): the line the function of `fetch` then reports on the
request is sent with the key, index and name of `parse`.  And on a step whose
metadata was never set, the `Status` call of the user function sends nothing:
`Exec` fails. -/
theorem Status_after_another_Exec_carries_other_identity :
    sentOf (runEvents demoWorld [.enter 1 0, .enter 0 0, .status 0 "x"])
        = [("run-0", "\x1b[34m[step-1]\x1b[0m[parse]: x")]
      ∧ statusLine Paint.ansiBlue fetchCtx "x" = ("run-1", "\x1b[34m[step-2]\x1b[0m[fetch]: x")
      ∧ step.Exec reportWorld 0 0 = .error .nilDeref :=
  ⟨by decide, by decide, rfl⟩

/-- Claim C5, amended. Whatever back-reference the request held before, the entry of
`Exec` on step `s` binds it to the `StepContext` of `s`.  From then on, in every
run of actions in which the request is not handed to another `Exec`, a `Status`
call on the request is the `Status` call of `s`, so when `s` has identity
metadata it is sent with the key, index and name of `s`.  And when `s` has
metadata and the user function reports on the request it was given, the calls
made to the sink during `Exec` are exactly the lines the function reported, in
order, each with the identity of `s`. -/
theorem Exec_binds_request_until_next_Exec (w : World) (s r : Addr) (st : step) (q : Request)
    (hs : w.steps[s]? = some st) (hq : w.requests[r]? = some q) :
    (step.enter w s r = .ok (w.scopes.length, entered w s st r q)
        ∧ (entered w s st r q).requests[r]? = some { q with stepContext := some s })
      ∧ (∀ (es : List Event) (w1 : World) (line : String),
          (∀ e ∈ es, ∀ s1, e ≠ Event.enter s1 r) →
          runEvents w (Event.enter s r :: es) = .ok w1 →
          Request.Status w1 r line = step.Status w1 s line
            ∧ ∀ st1 v, w1.steps[s]? = some st1 → st1.StepContext.ctx = some v →
                Request.Status w1 r line
                  = .ok (send w1 v.pipelineKey (statusLine w1.paint v line).2))
      ∧ ∀ (f : ExecFunc) (v : stepContextVal) (res : Option Result) (w2 : World),
          st.execFunc = some f → st.StepContext.ctx = some v →
          (f w.scopes.length r).onlyOn r → step.Exec w s r = .ok (res, w2) →
          w2.sent = w.sent ++
            (statusLines ((f w.scopes.length r).events (entered w s st r q))).map
              (statusLine w.paint v) := by
  have hst := @entered_step w s r st q hs
  have hrq := @entered_request w s r st q hq
  refine ⟨⟨enter_eq hs hq, hrq⟩, ?_, ?_⟩
  · intro es w1 line hne hrun
    simp only [runEvents, Event.apply, enter_eq hs hq] at hrun
    have hb : boundTo w1 r s :=
      runEvents_boundTo es _ w1 r s hne ⟨_, hrq, rfl⟩ hrun
    refine ⟨Request_Status_of_boundTo hb line, ?_⟩
    intro st1 v hs1 hv1
    obtain ⟨q1, hq1, hqs1⟩ := hb
    exact Request_Status_bound hq1 hqs1 hs1 hv1 line
  · intro f v res w2 hf hv hon h
    rw [Exec_eq hs hq hf] at h
    exact runProg_sent_bound _ (entered w s st r q) w2 res r s _ _ v hon hrq rfl hst hv h

/-! ## `Exec` on a step without identity metadata -/

theorem Exec_returns_the_function_result_witness :
    freshWorld.steps[(NewStep (World.init Paint.plain) (some watchFunc)).1]?
        = some ⟨⟨none⟩, some watchFunc, none⟩
      ∧ freshWorld.requests[0]? = some ⟨none, .int 7, []⟩
      ∧ step.Exec freshWorld 0 0
          = runProg (watchFunc 0 0)
              (entered freshWorld 0 ⟨⟨none⟩, some watchFunc, none⟩ 0 ⟨none, .int 7, []⟩)
      ∧ step.Exec freshWorld 0 0 = .ok (some ⟨some "cancelled", .int 42, []⟩, freshAfter)
      ∧ Err freshAfter 0 = true :=
  ⟨rfl, rfl,
    (Exec_returns_the_function_result freshWorld 0 0 ⟨⟨none⟩, some watchFunc, none⟩
      ⟨none, .int 7, []⟩ watchFunc rfl rfl rfl).2.1,
    (Exec_returns_the_function_result freshWorld 0 0 ⟨⟨none⟩, some watchFunc, none⟩
      ⟨none, .int 7, []⟩ watchFunc rfl rfl rfl).2.2 _ _ rfl,
    by decide⟩

theorem Cancel_after_Exec_returned_witness :
    step.Exec demoWorld 1 0 = .ok (some ⟨some "cancelled", .int 42, []⟩, demoAfter)
      ∧ execThenCancel demoWorld 1 0
          = .ok (some ⟨some "cancelled", .int 42, []⟩, callCancel demoAfter 0)
      ∧ (callCancel demoAfter 0).sent = demoAfter.sent :=
  ⟨rfl,
    (Cancel_after_Exec_returned demoWorld demoAfter 1 0 _ rfl).2.1,
    (Cancel_after_Exec_returned demoWorld demoAfter 1 0 _ rfl).2.2.2.2.1⟩

theorem Cancel_idempotent_witness :
    runningWorld.steps[0]? = some ⟨⟨some fetchCtx⟩, some answerFunc, some 0⟩
      ∧ 0 < runningWorld.scopes.length
      ∧ Err runningWorld 0 = false
      ∧ Err (callCancel runningWorld 0) 0 = true
      ∧ cancelN 1 runningWorld 0 = .ok (callCancel runningWorld 0)
      ∧ cancelN 3 runningWorld 0 = .ok (callCancel runningWorld 0) :=
  ⟨rfl, by decide, by decide,
    (Cancel_idempotent runningWorld 0 _ 0 rfl rfl (by decide)).2.1,
    (Cancel_idempotent runningWorld 0 _ 0 rfl rfl (by decide)).2.2 1 (by decide),
    (Cancel_idempotent runningWorld 0 _ 0 rfl rfl (by decide)).2.2 3 (by decide)⟩

theorem Exec_binds_request_until_next_Exec_witness :
    demoWorld.steps[1]? = some fetchStep ∧ demoWorld.requests[0]? = some fetchReq
      ∧ fetchReq.stepContext = some 0 ∧ demoWorld.steps[0]? = some parseStep
      ∧ parseStep.StepContext.ctx = some parseCtx
      ∧ fetchStep.StepContext.ctx = some fetchCtx
      ∧ (entered demoWorld 1 fetchStep 0 fetchReq).requests[0]? = some ⟨some 1, .int 7, []⟩
      ∧ Request.Status demoAfter 0 "y"
          = .ok (send demoAfter "run-1" (statusLine Paint.ansiBlue fetchCtx "y").2)
      ∧ step.Exec demoWorld 1 0 = .ok (some ⟨some "cancelled", .int 42, []⟩, demoAfter)
      ∧ demoAfter.sent = demoWorld.sent ++ ["done"].map (statusLine demoWorld.paint fetchCtx) :=
  ⟨rfl, rfl, rfl, rfl, rfl, rfl,
    (Exec_binds_request_until_next_Exec demoWorld 1 0 fetchStep fetchReq rfl rfl).1.2,
    ((Exec_binds_request_until_next_Exec demoWorld 1 0 fetchStep fetchReq rfl rfl).2.1
      [.status 0 "done", .cancel 1] demoAfter "y" (by simp) rfl).2 _ fetchCtx rfl rfl,
    rfl,
    (Exec_binds_request_until_next_Exec demoWorld 1 0 fetchStep fetchReq rfl rfl).2.2
      fetchFunc fetchCtx _ demoAfter rfl rfl ⟨rfl, fun _ => trivial⟩ rfl⟩

theorem Status_text_parts_witness :
    ∃ text : String,
      StepContext.Status (World.init Paint.plain) ⟨some fetchCtx⟩ "done"
          = .ok (send (World.init Paint.plain) "run-1" text)
        ∧ contains text "[step-2][fetch]: done" := by
  obtain ⟨text, h1, -, -, -, h5⟩ := Status_text_parts (World.init Paint.plain) fetchCtx "done"
  exact ⟨text, h1, h5 rfl⟩

theorem Exec_again_overwrites_the_handle_witness :
    step.Exec demoWorld 0 0 = .ok (some ⟨none, .int 42, []⟩, onceWorld)
      ∧ step.Exec onceWorld 0 0 = .ok (some ⟨none, .int 42, []⟩, twiceWorld)
      ∧ demoWorld.scopes.length < onceWorld.scopes.length
      ∧ step.Cancel twiceWorld 0 = .ok (callCancel twiceWorld onceWorld.scopes.length)
      ∧ Err (callCancel twiceWorld onceWorld.scopes.length) onceWorld.scopes.length = true
      ∧ Err (callCancel twiceWorld onceWorld.scopes.length) demoWorld.scopes.length
          = Err twiceWorld demoWorld.scopes.length
      ∧ Err twiceWorld demoWorld.scopes.length = false :=
  ⟨rfl, rfl,
    (Exec_again_overwrites_the_handle demoWorld onceWorld twiceWorld 0 0 0 _ _ rfl rfl).1,
    (Exec_again_overwrites_the_handle demoWorld onceWorld twiceWorld 0 0 0 _ _ rfl rfl).2.2.2.1,
    (Exec_again_overwrites_the_handle demoWorld onceWorld twiceWorld 0 0 0 _ _ rfl rfl).2.2.2.2.1,
    (Exec_again_overwrites_the_handle demoWorld onceWorld twiceWorld 0 0 0 _ _ rfl rfl).2.2.2.2.2,
    by decide⟩

theorem scope_cancelled_only_by_Cancel_on_its_step_witness :
    runEvents (World.init Paint.plain) demoEvents = .ok demoReached
      ∧ Err demoReached 0 = true
      ∧ CancelledByOwner Paint.plain demoEvents 0 :=
  ⟨rfl, by decide,
    (scope_cancelled_only_by_Cancel_on_its_step Paint.plain demoEvents demoReached rfl).2 0
      (by decide)⟩

end pipeline
